import Mathlib

/-!
Verification of the parakeet.js benchmark harness core logic.

This file gives a shallow embedding, in Lean 4, of the pure core of the
benchmark harness: the stats kernel (text normalization, Levenshtein
distance, text similarity, mean / median / percentile / stddev, linear
regression, CSV field escaping), the seeded dataset sampler
(FNV-1a seed hashing, the Mulberry32 PRNG, bounded draw-without-replacement),
the trial executor loop that builds `Run` records, the run-log /
snapshot state machine, and the snapshot compaction.

JavaScript numbers are modelled as exact rationals; a JS value that can be
`undefined` / `null` / non-finite is modelled as an `Option`, with `none`
standing for the absent or non-finite case.  Strings are modelled as lists
of characters; seed strings are modelled as lists of UTF-16 code units.
32-bit JS integer arithmetic (`Math.imul`, `^`, `>>>`, `|`) is modelled on
unsigned 32-bit patterns, i.e. naturals reduced modulo 2^32.
-/

namespace Bench

/-! Text normalization (stats module `normalizeText`):
lowercase, replace every character outside `[a-z0-9\s]` by a space,
collapse whitespace runs to single spaces, trim. -/

/-- Whitespace characters recognised by the embedding of the regex class
`\s` (the common ASCII subset). -/
def isWsChar (c : Char) : Bool :=
  c = ' ' || c = '\t' || c = '\n' || c = '\r' || c = '\x0B' || c = '\x0C'

/-- Character class `[a-z0-9]` used after lowercasing. -/
def isLowerAlnum (c : Char) : Bool :=
  ('a' ≤ c && c ≤ 'z') || ('0' ≤ c && c ≤ '9')

/-- Replacement step of `normalizeText`: regex `[^a-z0-9\s]` to a space. -/
def toSpaceUnlessAlnumWs (c : Char) : Char :=
  if isLowerAlnum c || isWsChar c then c else ' '

/-- Collapse every maximal run of whitespace to a single space
(regex `\s+` replaced by one space). -/
def collapseWs : List Char → List Char
  | [] => []
  | c :: cs =>
    if isWsChar c then ' ' :: collapseWs (cs.dropWhile fun d => isWsChar d)
    else c :: collapseWs cs
termination_by l => l.length
decreasing_by
  · simp only [List.length_cons]
    exact Nat.lt_succ_of_le (List.dropWhile_sublist (fun d => isWsChar d)).length_le
  · simp

/-- Trim leading and trailing whitespace. -/
def trimWs (l : List Char) : List Char :=
  ((l.dropWhile fun c => isWsChar c).reverse.dropWhile fun c => isWsChar c).reverse

/-- Embedding of `normalizeText` from the stats module: lowercase,
punctuation to spaces, whitespace collapsed, trimmed. -/
def normalizeText (s : List Char) : List Char :=
  trimWs (collapseWs ((s.map Char.toLower).map toSpaceUnlessAlnumWs))

/-! Levenshtein distance (stats module `levenshteinDistance`), embedding the
two-row dynamic program, including the early-exit branches of the source. -/

/-- Inner loop of the Levenshtein DP: compute the tail of the current row
from the previous row.  `c` is the current left character, the first list
is the remaining right characters, the second the remaining previous-row
entries (starting at `prev[j-1]`), `w` is `curr[j-1]`. -/
def levRowAux (c : Char) : List Char → List Nat → Nat → List Nat
  | rc :: rs, p0 :: p1 :: ps, w =>
    let cost := if c = rc then 0 else 1
    let cur := min (p1 + 1) (min (w + 1) (p0 + cost))
    cur :: levRowAux c rs (p1 :: ps) cur
  | _, _, _ => []

/-- Outer loop of the Levenshtein DP: fold the left string over rows.
`i` is the index of the current left character (1-based row header). -/
def levLoop (right : List Char) : List Char → List Nat → Nat → List Nat
  | [], prev, _ => prev
  | c :: cs, prev, i => levLoop right cs ((i + 1) :: levRowAux c right prev (i + 1)) (i + 1)

/-- Embedding of `levenshteinDistance`: early exits for equal strings and
empty operands, then the row DP; the answer is the last entry of the final
row (`prev[right.length]`). -/
def levenshteinDistance (a b : List Char) : Nat :=
  if a = b then 0
  else if a.length = 0 then b.length
  else if b.length = 0 then a.length
  else (levLoop b a (List.range (b.length + 1)) 0).getLastD 0

/-- Embedding of `textSimilarity`: normalize both strings and return
`1 - distance / maxLen`, with `1` when both normal forms are empty. -/
def textSimilarity (a b : List Char) : ℚ :=
  let left := normalizeText a
  let right := normalizeText b
  let maxLen := max left.length right.length
  if maxLen = 0 then 1
  else 1 - (levenshteinDistance left right : ℚ) / (maxLen : ℚ)

/-! Numeric stats kernel: `mean`, `median`, `percentile`, `stddev`.
All return JS `null` (here `none`) exactly where the source does. -/

/-- Accumulating sum, embedding `values.reduce((sum, v) => sum + v, 0)`. -/
def listSum (l : List ℚ) : ℚ := l.foldl (fun s v => s + v) 0

/-- Mean value used internally (sum divided by length). -/
def meanVal (vs : List ℚ) : ℚ := listSum vs / (vs.length : ℚ)

/-- Embedding of `mean`: `null` on empty input, else the average. -/
def mean (vs : List ℚ) : Option ℚ :=
  if vs = [] then none else some (meanVal vs)

/-- Ascending numeric sort, the embedding of `[...values].sort((a, b) => a - b)`.
For rationals every ascending sort yields the same list, so insertion sort
is a faithful model of the engine sort. -/
def sortAsc (vs : List ℚ) : List ℚ := List.insertionSort (· ≤ ·) vs

/-- Embedding of `median`: `null` on empty input; middle element for odd
length, average of the two middle elements for even length. -/
def median (vs : List ℚ) : Option ℚ :=
  if vs = [] then none
  else
    let sorted := sortAsc vs
    let mid := sorted.length / 2
    if sorted.length % 2 = 1 then some (sorted.getD mid 0)
    else some ((sorted.getD (mid - 1) 0 + sorted.getD mid 0) / 2)

/-- Computable embedding of JS `Math.ceil` on exact rationals. -/
def ratCeil (q : ℚ) : ℤ := -((-q.num).ediv (q.den : ℤ))

/-- Embedding of `percentile`: sort ascending and take the entry at
nearest-rank index `ceil(p/100 * n) - 1`, clamped into `[0, n-1]`. -/
def percentile (vs : List ℚ) (p : ℚ) : Option ℚ :=
  if vs = [] then none
  else
    let sorted := sortAsc vs
    let idx := (min ((sorted.length : ℤ) - 1)
      (max 0 (ratCeil (p / 100 * (sorted.length : ℚ)) - 1))).toNat
    some (sorted.getD idx 0)

/-- Sample variance with the `n - 1` divisor, as accumulated by `stddev`
in the source for inputs of length at least 2. -/
def sampleVariance (vs : List ℚ) : ℚ :=
  (vs.foldl (fun s v => s + (v - meanVal vs) ^ 2) 0) / ((vs.length : ℚ) - 1)

/-- Embedding of `stddev`: the source returns the number `0` (never `null`)
for fewer than 2 values, and otherwise the square root of the sample
variance.  The `Option` is the JS value space (a function result that could
be `null`); `stddev` in fact never takes the `none` branch. -/
noncomputable def stddev (vs : List ℚ) : Option ℝ :=
  if vs.length < 2 then some 0
  else some (Real.sqrt (sampleVariance vs))

/-! Linear regression (`linearFit` from the space template): ordinary least
squares with degenerate branches. -/

/-- Result record of `linearFit`. -/
structure LinFit where
  a : ℚ
  b : ℚ
  r2 : ℚ
deriving DecidableEq

/-- Embedding of `linearFit`.  Index-parallel loops over `xArr`/`yArr`
become folds over the zipped list; `n` is `xArr.length` exactly as in
the source. -/
def linearFit (xArr yArr : List ℚ) : LinFit :=
  let n := xArr.length
  if n < 2 then ⟨0, 0, 0⟩
  else
    let mx := listSum xArr / (n : ℚ)
    let my := listSum yArr / (n : ℚ)
    let pts := xArr.zip yArr
    let num := pts.foldl (fun s p => s + (p.1 - mx) * (p.2 - my)) 0
    let den := xArr.foldl (fun s x => s + (x - mx) ^ 2) 0
    let a := if den = 0 then 0 else num / den
    let b := my - a * mx
    let ssRes := pts.foldl (fun s p => s + (p.2 - (a * p.1 + b)) ^ 2) 0
    let ssTot := (yArr.take n).foldl (fun s y => s + (y - my) ^ 2) 0
    let r2 := if ssTot = 0 then 0 else 1 - ssRes / ssTot
    ⟨a, b, r2⟩

/-! CSV field escaping (stats module `csvEscape`) and the corresponding
field parser. -/

/-- Characters that force quoting of a CSV field (regex `[",\n]`). -/
def isCsvSpecial (c : Char) : Bool := c = '"' || c = ',' || c = '\n'

/-- Double every internal quote (`.replace(/"/g, '""')`). -/
def escQuotes : List Char → List Char
  | [] => []
  | c :: cs => if c = '"' then '"' :: '"' :: escQuotes cs else c :: escQuotes cs

/-- Embedding of `csvEscape` on strings: quote the field, doubling internal
quotes, iff it contains a comma, a double quote or a newline. -/
def csvEscape (s : List Char) : List Char :=
  if s.any isCsvSpecial then '"' :: (escQuotes s ++ ['"']) else s

/-- Collapse doubled quotes back to single quotes. -/
def unescQuotes : List Char → List Char
  | [] => []
  | [c] => [c]
  | c :: d :: cs =>
    if c = '"' ∧ d = '"' then '"' :: unescQuotes cs
    else c :: unescQuotes (d :: cs)

/-- Modelled from the spec: the repository only serializes CSV and has no
CSV reader, so the parse direction of the round-trip property is modelled
from the export-format contract (a field wrapped in double quotes with
internal quotes doubled denotes the unwrapped text with doubled quotes
collapsed; any other field denotes itself). -/
def csvParseField (s : List Char) : List Char :=
  if 2 ≤ s.length ∧ s.head? = some '"' ∧ s.getLast? = some '"' then
    unescQuotes (s.drop 1).dropLast
  else s

/-! Seeded sampler (`hfDataset.js`): FNV-1a seed hashing, Mulberry32,
and the bounded draw-without-replacement offset selection of
`fetchRandomRows`. -/

/-- Modulus of unsigned 32-bit patterns. -/
def UINT32 : Nat := 2 ^ 32

/-- Embedding of `Math.imul` on unsigned 32-bit patterns: the low 32 bits
of the product. -/
def imul32 (a b : Nat) : Nat := a * b % UINT32

/-- FNV-1a style hash of `normalizeSeed`, over UTF-16 code units
(each below 2^16, enforced by the mask). -/
def fnv1a (text : List Nat) : Nat :=
  text.foldl (fun h c => imul32 (h ^^^ c % 65536) 16777619) 2166136261

/-- Embedding of `normalizeSeed`: `undefined`, `null` and the empty string
give `null`; otherwise the FNV-1a hash of the seed string. -/
def normalizeSeed : Option (List Nat) → Option Nat
  | none => none
  | some [] => none
  | some text => some (fnv1a text)

/-- One step of the Mulberry32 generator (`createMulberry32`): returns the
new state and the 32-bit output whose quotient by 2^32 is the JS float. -/
def mulberry32Next (t : Nat) : Nat × Nat :=
  let t1 := (t + 0x6D2B79F5) % UINT32
  let x1 := imul32 (t1 ^^^ (t1 >>> 15)) (t1 ||| 1)
  let x2 := x1 ^^^ ((x1 + imul32 (x1 ^^^ (x1 >>> 7)) (x1 ||| 61)) % UINT32)
  (t1, x2 ^^^ (x2 >>> 14))

/-- Offset drawn from one PRNG output: `Math.floor(rand() * maxRows)`
with `rand() = u / 2^32`. -/
def drawOffset (u maxRows : Nat) : Nat := u * maxRows / UINT32

/-- Offset-selection loop of `fetchRandomRows` in the seeded case.  The
fuel is the remaining attempt budget (`maxOffsetAttempts - offsetAttempts`);
the loop guard `selectedOffsets.size < wanted && selectedOffsets.size <
maxRows` is checked before every draw, and a colliding draw is skipped. -/
def selectOffsets : Nat → Nat → List Nat → Nat → Nat → List Nat
  | 0, _, acc, _, _ => acc
  | fuel + 1, t, acc, maxRows, wanted =>
    if acc.length < wanted ∧ acc.length < maxRows then
      let nxt := mulberry32Next t
      let offset := drawOffset nxt.2 maxRows
      selectOffsets fuel nxt.1 (if offset ∈ acc then acc else acc ++ [offset]) maxRows wanted
    else acc

/-- Denominator of the `Math.random` model (53-bit uniform draws). -/
def MATH_RANDOM_DENOM : Nat := 2 ^ 53

/-- Offset-selection loop in the unseeded case: draws come from an external
entropy stream standing for successive `Math.random()` calls, indexed by a
draw counter. -/
def selectOffsetsEntropy : Nat → (Nat → Nat) → Nat → List Nat → Nat → Nat → List Nat
  | 0, _, _, acc, _, _ => acc
  | fuel + 1, entropy, i, acc, maxRows, wanted =>
    if acc.length < wanted ∧ acc.length < maxRows then
      let offset := entropy i % MATH_RANDOM_DENOM * maxRows / MATH_RANDOM_DENOM
      selectOffsetsEntropy fuel entropy (i + 1)
        (if offset ∈ acc then acc else acc ++ [offset]) maxRows wanted
    else acc

/-- Offset-selection phase of `fetchRandomRows`: clamp the requested count,
normalize the seed, pick the PRNG (seeded Mulberry32, or the external
entropy stream standing for `Math.random` when the seed is absent or
empty), and run the bounded draw loop with attempt budget
`min(maxRows * 3, maxRows + wanted * 20)`. -/
def fetchRandomRowsOffsets (totalRows sampleCount : Nat) (seed : Option (List Nat))
    (entropy : Nat → Nat) : List Nat :=
  let targetCount := max 1 sampleCount
  let maxRows := max 1 totalRows
  let wanted := min targetCount maxRows
  let maxOffsetAttempts := min (maxRows * 3) (maxRows + wanted * 20)
  match normalizeSeed seed with
  | some sv => selectOffsets maxOffsetAttempts sv [] maxRows wanted
  | none => selectOffsetsEntropy maxOffsetAttempts entropy 0 [] maxRows wanted

/-! Trial executor (`runBenchmark` in the space template): per-sample
decode, warm-up trials, measured repeats with per-trial error isolation and
a per-sample baseline transcription.  The ASR backend and the audio
decoder are external collaborators, modelled as oracles: `decode` maps a
sample to its decoded duration or a decode error, and `trials i r` is the
outcome of measured repeat `r` for sample index `i` (warm-up calls are
awaited but their results are discarded by the source, so they do not
appear in the output).  Environment fields copied verbatim into every
record (model key, backend, quantization, hardware labels, timestamps)
are omitted: no property here depends on them. -/

/-- Stage timing record returned by the ASR backend.  Fields are absent or
non-finite when profiling is disabled; `none` models exactly those cases. -/
structure Metrics where
  preprocess_ms : Option ℚ
  encode_ms : Option ℚ
  decode_ms : Option ℚ
  tokenize_ms : Option ℚ
  total_ms : Option ℚ
  rtf : Option ℚ
  preprocessor_backend : Option (List Char)
deriving DecidableEq

/-- Result of one `transcribe` call of the ASR backend. -/
structure TranscribeResult where
  utterance_text : List Char
  metrics : Option Metrics
deriving DecidableEq

/-- Prepared dataset row consumed by the executor. -/
structure Sample where
  rowIndex : Nat
  audioUrl : List Char
  referenceText : List Char
deriving DecidableEq

/-- One benchmark trial outcome, as appended to the run log. -/
structure Run where
  id : List Char
  batchId : List Char
  sampleKey : List Char
  rowIndex : Nat
  repeatIndex : Nat
  audioDurationSec : Option ℚ
  referenceText : List Char
  transcription : List Char
  exactMatchToFirst : Option Bool
  similarityToFirst : Option ℚ
  metrics : Option Metrics
  error : Option (List Char)
deriving DecidableEq

/-- Decimal digits of a natural number, for building keys and ids. -/
def natChars (n : Nat) : List Char := (Nat.repr n).data

/-- Sample key template literal: `datasetSplit : rowIndex`. -/
def sampleKeyOf (split : List Char) (s : Sample) : List Char :=
  split ++ ':' :: natChars s.rowIndex

/-- Placeholder `Run` pushed when audio fetch/decode fails for a sample:
`repeatIndex` 0, no duration, empty transcription, no metrics, the decode
error recorded. -/
def decodeErrorRun (batchId split : List Char) (sample : Sample) (msg : List Char) : Run :=
  { id := batchId ++ '-' :: sampleKeyOf split sample ++ "-decode-error".data
    batchId := batchId
    sampleKey := sampleKeyOf split sample
    rowIndex := sample.rowIndex
    repeatIndex := 0
    audioDurationSec := none
    referenceText := sample.referenceText
    transcription := []
    exactMatchToFirst := none
    similarityToFirst := none
    metrics := none
    error := some ("Decode error: ".data ++ msg) }

/-- Error `Run` recorded when the `transcribe` call for repeat `r` throws:
the repeat index is kept, metrics are null, the error message is
prefixed, and the decoded duration is still recorded. -/
def transcribeErrorRun (batchId sampleKey : List Char) (rowIndex : Nat)
    (refText : List Char) (durationSec : ℚ) (r : Nat) (msg : List Char) : Run :=
  { id := batchId ++ '-' :: sampleKey ++ "-run-".data ++ natChars r ++ "-error".data
    batchId := batchId
    sampleKey := sampleKey
    rowIndex := rowIndex
    repeatIndex := r
    audioDurationSec := some durationSec
    referenceText := refText
    transcription := []
    exactMatchToFirst := none
    similarityToFirst := none
    metrics := none
    error := some ("Transcribe error: ".data ++ msg) }

/-- Measured-repeat loop for one sample.  `r` is the 1-based repeat about
to run, the second argument the number of repeats remaining, `baseline`
the normalized transcription of the first successful trial so far (`null`
until one succeeds).  A successful trial sets the baseline if it is still
null, then records the comparison against the (possibly just-set)
baseline and the backend metrics verbatim; a failing trial records an
error `Run` at its repeat index and the loop continues. -/
def measuredRunsGo (batchId sampleKey : List Char) (rowIndex : Nat)
    (refText : List Char) (durationSec : ℚ)
    (trial : Nat → Except (List Char) TranscribeResult) :
    Nat → Nat → Option (List Char) → List Run
  | _, 0, _ => []
  | r, rem + 1, baseline =>
    match trial r with
    | Except.ok result =>
      let normalized := normalizeText result.utterance_text
      let baseline1 := baseline.getD normalized
      { id := batchId ++ '-' :: sampleKey ++ "-run-".data ++ natChars r
        batchId := batchId
        sampleKey := sampleKey
        rowIndex := rowIndex
        repeatIndex := r
        audioDurationSec := some durationSec
        referenceText := refText
        transcription := result.utterance_text
        exactMatchToFirst := some (baseline1 == normalized)
        similarityToFirst := some (textSimilarity baseline1 normalized)
        metrics := result.metrics
        error := none } ::
        measuredRunsGo batchId sampleKey rowIndex refText durationSec trial
          (r + 1) rem (some baseline1)
    | Except.error msg =>
      transcribeErrorRun batchId sampleKey rowIndex refText durationSec r msg ::
        measuredRunsGo batchId sampleKey rowIndex refText durationSec trial
          (r + 1) rem baseline

/-- Runs emitted for one sample: a single decode-error placeholder when
audio decode fails (the loop then continues with the next sample),
otherwise the measured repeats with a fresh `null` baseline. -/
def sampleRuns (batchId split : List Char) (repeatCount : Nat)
    (decode : Sample → Except (List Char) ℚ)
    (trial : Nat → Except (List Char) TranscribeResult) (sample : Sample) : List Run :=
  match decode sample with
  | Except.error msg => [decodeErrorRun batchId split sample msg]
  | Except.ok durationSec =>
    measuredRunsGo batchId (sampleKeyOf split sample) sample.rowIndex
      sample.referenceText durationSec trial 1 repeatCount none

/-- Sequential sample loop of `runBenchmark`, starting at sample index
`i0`; the output list is the run log suffix appended by the batch, in
completion order. -/
def runBenchmarkFrom (batchId split : List Char) (repeatCount : Nat)
    (decode : Sample → Except (List Char) ℚ)
    (trials : Nat → Nat → Except (List Char) TranscribeResult) :
    Nat → List Sample → List Run
  | _, [] => []
  | i0, s :: rest =>
    sampleRuns batchId split repeatCount decode (trials i0) s ++
      runBenchmarkFrom batchId split repeatCount decode trials (i0 + 1) rest

/-- Embedding of the `runBenchmark` batch loop (without cooperative
cancellation, i.e. the stop flag never set). -/
def runBenchmark (batchId split : List Char) (samples : List Sample)
    (repeatCount : Nat) (decode : Sample → Except (List Char) ℚ)
    (trials : Nat → Nat → Except (List Char) TranscribeResult) : List Run :=
  runBenchmarkFrom batchId split repeatCount decode trials 0 samples

/-- Truthiness test used by the `okRuns` filter on the metrics part:
`r.metrics && Number.isFinite(r.metrics.total_ms)`. -/
def metricsFiniteTotal : Option Metrics → Bool
  | some m => m.total_ms.isSome
  | none => false

/-- Embedding of the `okRuns` selector: successful runs with a metrics
object and a finite `total_ms`. -/
def okRuns (runs : List Run) : List Run :=
  runs.filter fun r => r.error.isNone && metricsFiniteTotal r.metrics

/-! Snapshot store: compaction of runs, save (prepend, bounded to
`MAX_SNAPSHOTS`), delete, and the run-log mutations (append after a batch,
clear). -/

/-- Embedding of `calcRtfx`: `null` unless both the duration and the stage
latency are finite and positive, else `duration * 1000 / latency`. -/
def calcRtfx (audioDurationSec stageMs : Option ℚ) : Option ℚ :=
  match audioDurationSec, stageMs with
  | some duration, some latencyMs =>
    if 0 < duration ∧ 0 < latencyMs then some (duration * 1000 / latencyMs) else none
  | _, _ => none

/-- Compacted metrics kept in a stored snapshot, with the derived
per-stage RTFx fields. -/
structure CompactMetrics where
  preprocess_ms : Option ℚ
  encode_ms : Option ℚ
  decode_ms : Option ℚ
  tokenize_ms : Option ℚ
  total_ms : Option ℚ
  rtf : Option ℚ
  encode_rtfx : Option ℚ
  decode_rtfx : Option ℚ
  preprocessor_backend : Option (List Char)
deriving DecidableEq

/-- Compacted run kept in a stored snapshot. -/
structure CompactRun where
  id : List Char
  sampleKey : List Char
  repeatIndex : Nat
  exactMatchToFirst : Option Bool
  similarityToFirst : Option ℚ
  audioDurationSec : Option ℚ
  metrics : Option CompactMetrics
  error : Option (List Char)
deriving DecidableEq

/-- Embedding of `compactRunsForStorage`: every compacted run is built
field by field from the source run (fresh records, no shared structure). -/
def compactRunsForStorage (runs : List Run) : List CompactRun :=
  runs.map fun run =>
    { id := run.id
      sampleKey := run.sampleKey
      repeatIndex := run.repeatIndex
      exactMatchToFirst := run.exactMatchToFirst
      similarityToFirst := run.similarityToFirst
      audioDurationSec := run.audioDurationSec
      metrics := run.metrics.map fun m =>
        { preprocess_ms := m.preprocess_ms
          encode_ms := m.encode_ms
          decode_ms := m.decode_ms
          tokenize_ms := m.tokenize_ms
          total_ms := m.total_ms
          rtf := m.rtf
          encode_rtfx := calcRtfx run.audioDurationSec m.encode_ms
          decode_rtfx := calcRtfx run.audioDurationSec m.decode_ms
          preprocessor_backend := m.preprocessor_backend }
      error := run.error }

/-- Bound on the retained snapshot history. -/
def MAX_SNAPSHOTS : Nat := 20

/-- Stored snapshot (settings / summary / hardware payloads are opaque to
every property here and are represented by the label). -/
structure Snapshot where
  id : List Char
  label : List Char
  runs : List CompactRun
deriving DecidableEq

/-- Live page state: the run log and the snapshot list. -/
structure BenchState where
  runs : List Run
  snapshots : List Snapshot
deriving DecidableEq

/-- Mutations of the live state: append a batch to the run log, clear the
run log, save a snapshot of the current run log, delete a snapshot. -/
inductive Action where
  | appendRuns (newRuns : List Run)
  | clearRuns
  | saveSnapshot (id label : List Char)
  | deleteSnapshot (id : List Char)
deriving DecidableEq

/-- Actions that only touch the run log (the mutations quantified over by
the snapshot-immutability property). -/
def isRunLogAction : Action → Bool
  | Action.appendRuns _ => true
  | Action.clearRuns => true
  | _ => false

/-- State transition: `saveCurrentSnapshot` refuses an empty run log,
otherwise prepends a snapshot holding an independent compacted copy of
every current run and truncates the history to `MAX_SNAPSHOTS`;
`deleteSnapshot` filters by id; the run-log actions mirror
`setRuns(prev => [...prev, ...out])` and `setRuns([])`. -/
def step (st : BenchState) : Action → BenchState
  | Action.appendRuns newRuns => { st with runs := st.runs ++ newRuns }
  | Action.clearRuns => { st with runs := [] }
  | Action.saveSnapshot id label =>
    if st.runs = [] then st
    else { st with snapshots :=
      ({ id := id, label := label, runs := compactRunsForStorage st.runs } ::
        st.snapshots).take MAX_SNAPSHOTS }
  | Action.deleteSnapshot id =>
    { st with snapshots := st.snapshots.filter fun item => item.id ≠ id }

/-- Sum of squared residuals of the line `y = a x + b` over the paired
data (the quantity ordinary least squares minimizes). -/
def ssqResid (xs ys : List ℚ) (a b : ℚ) : ℚ :=
  ((xs.zip ys).map fun p => (p.2 - (a * p.1 + b)) ^ 2).sum

/-- Total sum of squares of `ys` about a center `c`. -/
def ssTotAbout (ys : List ℚ) (c : ℚ) : ℚ :=
  (ys.map fun y => (y - c) ^ 2).sum

/-- Quadratic form giving the sum of squared residuals in terms of the
moment sums. -/
def Eform (Syy Sxx Sxy Sy Sx n A B : ℚ) : ℚ :=
  Syy + A ^ 2 * Sxx + n * B ^ 2 - 2 * A * Sxy - 2 * B * Sy + 2 * A * B * Sx

/-- Concrete batch for instantiating the isolation property: three
samples, decode failing on the second. -/
def isoSamples : List Sample :=
  [⟨0, "u0".data, "t0".data⟩, ⟨1, "u1".data, "t1".data⟩, ⟨2, "u2".data, "t2".data⟩]

/-- Concrete decode oracle: sample with row index 1 fails. -/
def isoDecode (s : Sample) : Except (List Char) ℚ :=
  if s.rowIndex = 1 then Except.error "boom".data else Except.ok 1

/-- Concrete trial oracle: repeat 1 of sample index 2 throws. -/
def isoTrials (i r : Nat) : Except (List Char) TranscribeResult :=
  if i = 2 ∧ r = 1 then Except.error "flaky".data
  else Except.ok ⟨"ok".data, none⟩

/-- Concrete run used to instantiate the state-machine properties. -/
def exampleRun : Run :=
  { id := "b-sp:0-run-1".data
    batchId := "b".data
    sampleKey := "sp:0".data
    rowIndex := 0
    repeatIndex := 1
    audioDurationSec := some 2
    referenceText := "hello".data
    transcription := "hello".data
    exactMatchToFirst := some true
    similarityToFirst := some 1
    metrics := none
    error := none }

/-! Bridging lemmas. -/

/-- The computable embedding of `Math.ceil` agrees with the mathematical
ceiling on rationals. -/
theorem ratCeil_eq_ceil (q : ℚ) : ratCeil q = ⌈q⌉ := by
  have h1 : ⌈q⌉ = -⌊-q⌋ := by
    rw [← Int.ceil_neg, neg_neg]
  have h2 : ⌊-q⌋ = (-q).num / ((-q).den : ℤ) := Rat.floor_def
  rw [Rat.neg_num, Rat.neg_den] at h2
  have h3 : (-q.num) / (q.den : ℤ) = (-q.num).ediv (q.den : ℤ) := rfl
  rw [ratCeil, h1, h2, h3]

/-- A self-comparison always has similarity 1, whatever the string. -/
theorem textSimilarity_self (s : List Char) : textSimilarity s s = 1 := by
  unfold textSimilarity
  simp only [max_self, levenshteinDistance, if_pos rfl]
  split
  · rfl
  · simp

/-- Claim C7: `percentile(values, p)` sorts the values ascending and
returns the element at index `ceil(p/100 * n) - 1` clamped to `[0, n-1]`
(nearest-rank, not interpolated); `percentile([1..100], 90) = 90`; the
percentile of an empty list is null. -/
theorem percentile_nearest_rank :
    (∀ p : ℚ, percentile [] p = none) ∧
    (∀ q : ℚ, ratCeil q = ⌈q⌉) ∧
    (∀ (vs : List ℚ) (p : ℚ), vs ≠ [] →
      (sortAsc vs).Perm vs ∧ (sortAsc vs).Sorted (· ≤ ·) ∧
      percentile vs p = some ((sortAsc vs).getD
        (min ((vs.length : ℤ) - 1)
          (max 0 (⌈p / 100 * (vs.length : ℚ)⌉ - 1))).toNat 0)) ∧
    percentile ((List.range 100).map fun i => ((i + 1 : ℕ) : ℚ)) 90 = some 90 := by
  have hmain : ∀ (vs : List ℚ) (p : ℚ), vs ≠ [] →
      (sortAsc vs).Perm vs ∧ (sortAsc vs).Sorted (· ≤ ·) ∧
      percentile vs p = some ((sortAsc vs).getD
        (min ((vs.length : ℤ) - 1)
          (max 0 (⌈p / 100 * (vs.length : ℚ)⌉ - 1))).toNat 0) := by
    intro vs p h
    refine ⟨List.perm_insertionSort _ vs, List.sorted_insertionSort _ vs, ?_⟩
    have hlen : (sortAsc vs).length = vs.length :=
      (List.perm_insertionSort _ vs).length_eq
    simp only [percentile, if_neg h, ratCeil_eq_ceil, hlen]
  refine ⟨fun p => rfl, ratCeil_eq_ceil, hmain, ?_⟩
  have h100 : ((List.range 100).map fun i => ((i + 1 : ℕ) : ℚ)) ≠ [] := by decide
  have h := (hmain ((List.range 100).map fun i => ((i + 1 : ℕ) : ℚ)) 90 h100).2.2
  rw [h]
  have hlen : (((List.range 100).map fun i => ((i + 1 : ℕ) : ℚ)).length : ℤ) = 100 := by decide
  have hq : (90 : ℚ) / 100 *
      ((((List.range 100).map fun i => ((i + 1 : ℕ) : ℚ)).length : ℕ) : ℚ) = 90 := by
    norm_num
  rw [hlen, hq]
  have hceil : (⌈(90 : ℚ)⌉ : ℤ) = 90 := by
    exact_mod_cast Int.ceil_intCast (α := ℚ) 90
  rw [hceil]
  decide

/-- Witness for C7: the nearest-rank description instantiated on a
concrete nonempty list. -/
theorem percentile_nearest_rank_witness :
    (sortAsc [3, 1, 2]).Perm [3, 1, 2] ∧ (sortAsc [3, 1, 2]).Sorted (· ≤ ·) ∧
    percentile [3, 1, 2] 50 = some ((sortAsc [3, 1, 2]).getD
      (min ((([(3 : ℚ), 1, 2]).length : ℤ) - 1)
        (max 0 (⌈(50 : ℚ) / 100 * (([(3 : ℚ), 1, 2]).length : ℚ)⌉ - 1))).toNat 0) :=
  percentile_nearest_rank.2.2.1 [3, 1, 2] 50 (by decide)

/-- Counterexample for C8: the source `stddev` returns the number 0, not
null, on the empty list (`values.length < 2` includes the empty input). -/
theorem stddev_empty_counterexample :
    stddev ([] : List ℚ) = some 0 ∧ (some (0 : ℝ) : Option ℝ) ≠ none := by
  constructor
  · simp [stddev]
  · simp

/-- Claim C8 (amended): `mean` and `median` return null on empty input;
`stddev` returns 0 (never null) for every input with fewer than 2
elements, including the empty list, and otherwise takes the square root of
the sample variance with the `n - 1` divisor; `stddev([2,2,2]) = 0`. -/
theorem mean_median_null_stddev_small :
    mean ([] : List ℚ) = none ∧ median ([] : List ℚ) = none ∧
    (∀ vs : List ℚ, vs.length < 2 → stddev vs = some 0) ∧
    (∀ vs : List ℚ, 2 ≤ vs.length → stddev vs = some (Real.sqrt (sampleVariance vs))) ∧
    stddev [(2 : ℚ), 2, 2] = some 0 := by
  refine ⟨rfl, rfl, ?_, ?_, ?_⟩
  · intro vs h
    simp [stddev, h]
  · intro vs h
    rw [stddev, if_neg (by omega)]
  · have hvar : sampleVariance [(2 : ℚ), 2, 2] = 0 := by
      norm_num [sampleVariance, meanVal, listSum]
    rw [stddev, if_neg (by norm_num), hvar]
    simp

/-- Witness for C8: the small-input and general branches instantiated on
concrete lists. -/
theorem mean_median_null_stddev_small_witness :
    stddev [(5 : ℚ)] = some 0 ∧
    stddev [(1 : ℚ), 2] = some (Real.sqrt (sampleVariance [(1 : ℚ), 2])) :=
  ⟨mean_median_null_stddev_small.2.2.1 [5] (by decide),
   mean_median_null_stddev_small.2.2.2.1 [1, 2] (by decide)⟩

/-- Collapsing doubled quotes undoes quote doubling. -/
theorem unescQuotes_escQuotes (s : List Char) : unescQuotes (escQuotes s) = s := by
  induction s with
  | nil => rfl
  | cons c cs ih =>
    by_cases hc : c = '"'
    · subst hc
      rw [show escQuotes ('"' :: cs) = '"' :: '"' :: escQuotes cs from by
        rw [escQuotes]; simp]
      rw [show unescQuotes ('"' :: '"' :: escQuotes cs) =
        '"' :: unescQuotes (escQuotes cs) from by
          rw [unescQuotes.eq_def]
          simp, ih]
    · rw [escQuotes, if_neg hc]
      cases hes : escQuotes cs with
      | nil =>
        have : cs = [] := by
          cases cs with
          | nil => rfl
          | cons d ds =>
            rw [escQuotes] at hes
            split at hes <;> simp at hes
        subst this
        rfl
      | cons d rest =>
        rw [unescQuotes, if_neg (fun h => hc h.1), ← hes, ih]

/-- A field with no special character contains no double quote. -/
theorem no_quote_of_not_special (s : List Char) (h : s.any isCsvSpecial = false) :
    '"' ∉ s := by
  intro hmem
  have := List.any_eq_false.mp h '"' hmem
  simp [isCsvSpecial] at this

/-- Claim C9: CSV escaping quotes every field containing a comma, double
quote or newline, doubling internal quotes, and a field round-trips
through escape and parse; instantiated on a transcription containing both
a comma and a quote. -/
theorem csv_escape_roundtrip :
    (∀ s : List Char, s.any isCsvSpecial = true →
      csvEscape s = '"' :: (escQuotes s ++ ['"'])) ∧
    (∀ s : List Char, csvParseField (csvEscape s) = s) ∧
    csvEscape ("a,\"b".data) = "\"a,\"\"b\"".data := by
  refine ⟨?_, ?_, by decide⟩
  · intro s h
    rw [csvEscape, if_pos h]
  · intro s
    by_cases h : s.any isCsvSpecial
    · rw [csvEscape, if_pos h, csvParseField]
      have hshape : ('"' :: (escQuotes s ++ ['"'])) = ('"' :: escQuotes s) ++ ['"'] := by
        simp
      rw [if_pos ?side]
      case side =>
        refine ⟨by simp, rfl, ?_⟩
        rw [hshape, List.getLast?_concat]
      · simp only [List.drop_succ_cons, List.drop_zero, List.dropLast_concat]
        exact unescQuotes_escQuotes s
    · rw [csvEscape, if_neg h]
      rw [csvParseField]
      rw [if_neg ?notq]
      case notq =>
        rintro ⟨hlen, hhead, -⟩
        cases s with
        | nil => simp at hlen
        | cons c cs =>
          have hq : c = '"' := by simpa using hhead
          exact no_quote_of_not_special (c :: cs) (by simpa using h)
            (hq ▸ List.mem_cons_self c cs)

/-- Witness for C9: the quoting rule and the round-trip applied to the
concrete comma-and-quote transcription. -/
theorem csv_escape_roundtrip_witness :
    csvEscape ("a,\"b".data) = '"' :: (escQuotes ("a,\"b".data) ++ ['"']) ∧
    csvParseField (csvEscape ("a,\"b".data)) = "a,\"b".data :=
  ⟨csv_escape_roundtrip.1 ("a,\"b".data) (by decide),
   csv_escape_roundtrip.2.1 ("a,\"b".data)⟩

/-- Counterexample for C1: the empty seed string is normalized to null
(`normalizeSeed('') = null`), so the sampler falls back to the
non-deterministic source; two invocations at `(total, wanted) = (2, 1)`
with different `Math.random` outcomes select different index sets. -/
theorem sampler_empty_seed_counterexample :
    fetchRandomRowsOffsets 2 1 (some []) (fun _ => 0) = [0] ∧
    fetchRandomRowsOffsets 2 1 (some []) (fun _ => 2 ^ 52) = [1] := by
  constructor <;> decide

/-- Claim C1 (amended): for every non-empty seed string, the selected
offset list — hence the selected index set — is a function of
`(total, wanted, seed)` alone: it does not consult the external entropy
source, so two invocations at the same arguments agree however they are
timed. -/
theorem seeded_sampler_deterministic (text : List Nat) (h : text ≠ [])
    (totalRows sampleCount : Nat) (e1 e2 : Nat → Nat) :
    fetchRandomRowsOffsets totalRows sampleCount (some text) e1 =
      fetchRandomRowsOffsets totalRows sampleCount (some text) e2 := by
  cases text with
  | nil => exact absurd rfl h
  | cons c cs => rfl

/-- Witness for C1: determinism instantiated at a concrete seed, total and
count, with two different entropy streams. -/
theorem seeded_sampler_deterministic_witness :
    fetchRandomRowsOffsets 5 3 (some [104, 105]) (fun _ => 0) =
      fetchRandomRowsOffsets 5 3 (some [104, 105]) (fun i => i) :=
  seeded_sampler_deterministic [104, 105] (by decide) 5 3 (fun _ => 0) (fun i => i)

/-- The Mulberry32 output is an unsigned 32-bit pattern. -/
theorem mulberry32Next_snd_lt (t : Nat) : (mulberry32Next t).2 < UINT32 := by
  have hx1 : imul32 ((t + 0x6D2B79F5) % UINT32 ^^^ (t + 0x6D2B79F5) % UINT32 >>> 15)
      ((t + 0x6D2B79F5) % UINT32 ||| 1) < UINT32 :=
    Nat.mod_lt _ (by rw [UINT32]; positivity)
  unfold mulberry32Next
  have h2 : ∀ a b : Nat, a < UINT32 → b < UINT32 → a ^^^ b < UINT32 := by
    intro a b ha hb
    rw [UINT32] at *
    exact Nat.xor_lt_two_pow ha hb
  have hshift : ∀ (a k : Nat), a < UINT32 → a >>> k < UINT32 := by
    intro a k ha
    calc a >>> k ≤ a := by
          rw [Nat.shiftRight_eq_div_pow]
          exact Nat.div_le_self _ _
      _ < UINT32 := ha
  refine h2 _ _ (h2 _ _ ?_ ?_) (hshift _ _ (h2 _ _ ?_ ?_))
  all_goals exact Nat.mod_lt _ (by rw [UINT32]; positivity)

/-- An offset drawn from a 32-bit output stays below `maxRows`. -/
theorem drawOffset_lt (u maxRows : Nat) (hu : u < UINT32) (hm : 0 < maxRows) :
    drawOffset u maxRows < maxRows := by
  rw [drawOffset, Nat.div_lt_iff_lt_mul (by rw [UINT32]; positivity)]
  calc u * maxRows < UINT32 * maxRows := by
        exact Nat.mul_lt_mul_of_lt_of_le hu (le_refl maxRows) hm
    _ = maxRows * UINT32 := Nat.mul_comm _ _

/-- Loop invariant of the seeded offset-selection loop: starting from a
duplicate-free accumulator of in-range offsets, the result is
duplicate-free, in range, and no longer than `max acc.length wanted`. -/
theorem selectOffsets_inv (fuel : Nat) : ∀ (t : Nat) (acc : List Nat)
    (maxRows wanted : Nat), 0 < maxRows → acc.Nodup → (∀ o ∈ acc, o < maxRows) →
    (selectOffsets fuel t acc maxRows wanted).Nodup ∧
    (∀ o ∈ selectOffsets fuel t acc maxRows wanted, o < maxRows) ∧
    (selectOffsets fuel t acc maxRows wanted).length ≤ max acc.length wanted := by
  induction fuel with
  | zero =>
    intro t acc maxRows wanted hm hnd hlt
    exact ⟨hnd, hlt, le_max_left _ _⟩
  | succ fuel ih =>
    intro t acc maxRows wanted hm hnd hlt
    rw [selectOffsets]
    split
    · rename_i hcond
      dsimp only
      set offset := drawOffset (mulberry32Next t).2 maxRows with hoff
      have hofflt : offset < maxRows :=
        drawOffset_lt _ _ (mulberry32Next_snd_lt t) hm
      by_cases hmem : offset ∈ acc
      · rw [if_pos hmem]
        have h := ih (mulberry32Next t).1 acc maxRows wanted hm hnd hlt
        exact ⟨h.1, h.2.1, h.2.2⟩
      · rw [if_neg hmem]
        have hnd2 : (acc ++ [offset]).Nodup := by
          simp [List.nodup_append, hnd, hmem]
        have hlt2 : ∀ o ∈ acc ++ [offset], o < maxRows := by
          intro o ho
          rcases List.mem_append.mp ho with h | h
          · exact hlt o h
          · simp at h
            omega
        have h := ih (mulberry32Next t).1 (acc ++ [offset]) maxRows wanted hm hnd2 hlt2
        refine ⟨h.1, h.2.1, ?_⟩
        calc (selectOffsets fuel (mulberry32Next t).1 (acc ++ [offset]) maxRows wanted).length
            ≤ max (acc ++ [offset]).length wanted := h.2.2
          _ ≤ max acc.length wanted := by
              simp only [List.length_append, List.length_cons, List.length_nil]
              omega
    · exact ⟨hnd, hlt, le_max_left _ _⟩

/-- Loop invariant of the unseeded offset-selection loop. -/
theorem selectOffsetsEntropy_inv (fuel : Nat) : ∀ (entropy : Nat → Nat) (i : Nat)
    (acc : List Nat) (maxRows wanted : Nat), 0 < maxRows → acc.Nodup →
    (∀ o ∈ acc, o < maxRows) →
    (selectOffsetsEntropy fuel entropy i acc maxRows wanted).Nodup ∧
    (∀ o ∈ selectOffsetsEntropy fuel entropy i acc maxRows wanted, o < maxRows) ∧
    (selectOffsetsEntropy fuel entropy i acc maxRows wanted).length ≤ max acc.length wanted := by
  induction fuel with
  | zero =>
    intro entropy i acc maxRows wanted hm hnd hlt
    exact ⟨hnd, hlt, le_max_left _ _⟩
  | succ fuel ih =>
    intro entropy i acc maxRows wanted hm hnd hlt
    rw [selectOffsetsEntropy]
    split
    · rename_i hcond
      dsimp only
      set offset := entropy i % MATH_RANDOM_DENOM * maxRows / MATH_RANDOM_DENOM with hoff
      have hofflt : offset < maxRows := by
        rw [hoff, Nat.div_lt_iff_lt_mul (by rw [MATH_RANDOM_DENOM]; positivity)]
        calc entropy i % MATH_RANDOM_DENOM * maxRows < MATH_RANDOM_DENOM * maxRows := by
              exact Nat.mul_lt_mul_of_lt_of_le
                (Nat.mod_lt _ (by rw [MATH_RANDOM_DENOM]; positivity)) (le_refl maxRows) hm
          _ = maxRows * MATH_RANDOM_DENOM := Nat.mul_comm _ _
      by_cases hmem : offset ∈ acc
      · rw [if_pos hmem]
        have h := ih entropy (i + 1) acc maxRows wanted hm hnd hlt
        exact ⟨h.1, h.2.1, h.2.2⟩
      · rw [if_neg hmem]
        have hnd2 : (acc ++ [offset]).Nodup := by
          simp [List.nodup_append, hnd, hmem]
        have hlt2 : ∀ o ∈ acc ++ [offset], o < maxRows := by
          intro o ho
          rcases List.mem_append.mp ho with h | h
          · exact hlt o h
          · simp at h
            omega
        have h := ih entropy (i + 1) (acc ++ [offset]) maxRows wanted hm hnd2 hlt2
        refine ⟨h.1, h.2.1, ?_⟩
        calc (selectOffsetsEntropy fuel entropy (i + 1) (acc ++ [offset]) maxRows wanted).length
            ≤ max (acc ++ [offset]).length wanted := h.2.2
          _ ≤ max acc.length wanted := by
              simp only [List.length_append, List.length_cons, List.length_nil]
              omega
    · exact ⟨hnd, hlt, le_max_left _ _⟩

/-- Claim C5: the draw-without-replacement loop is total — it is defined
by structural recursion on the attempt budget
`min(maxRows * 3, maxRows + wanted * 20)`, mirroring the source loop guard
`offsetAttempts < maxOffsetAttempts` — and for every input it yields a
duplicate-free list of at most `wanted = min(max 1 sampleCount, max 1
totalRows)` offsets, all below the clamped row count. -/
theorem sampler_bounded_selection (totalRows sampleCount : Nat)
    (seed : Option (List Nat)) (entropy : Nat → Nat) :
    (fetchRandomRowsOffsets totalRows sampleCount seed entropy).Nodup ∧
    (fetchRandomRowsOffsets totalRows sampleCount seed entropy).length ≤
      min (max 1 sampleCount) (max 1 totalRows) ∧
    ((fetchRandomRowsOffsets totalRows sampleCount seed entropy).all
      fun o => o < max 1 totalRows) = true := by
  have hm : 0 < max 1 totalRows := by omega
  rw [fetchRandomRowsOffsets]
  cases hsd : normalizeSeed seed with
  | none =>
    have h := selectOffsetsEntropy_inv
      (min (max 1 totalRows * 3) (max 1 totalRows + min (max 1 sampleCount) (max 1 totalRows) * 20))
      entropy 0 [] (max 1 totalRows) (min (max 1 sampleCount) (max 1 totalRows))
      hm List.nodup_nil (by simp)
    refine ⟨h.1, ?_, ?_⟩
    · calc _ ≤ max ([] : List Nat).length (min (max 1 sampleCount) (max 1 totalRows)) := h.2.2
        _ = min (max 1 sampleCount) (max 1 totalRows) := by simp
    · rw [List.all_eq_true]
      intro o ho
      simpa using h.2.1 o ho
  | some sv =>
    have h := selectOffsets_inv
      (min (max 1 totalRows * 3) (max 1 totalRows + min (max 1 sampleCount) (max 1 totalRows) * 20))
      sv [] (max 1 totalRows) (min (max 1 sampleCount) (max 1 totalRows))
      hm List.nodup_nil (by simp)
    refine ⟨h.1, ?_, ?_⟩
    · calc _ ≤ max ([] : List Nat).length (min (max 1 sampleCount) (max 1 totalRows)) := h.2.2
        _ = min (max 1 sampleCount) (max 1 totalRows) := by simp
    · rw [List.all_eq_true]
      intro o ho
      simpa using h.2.1 o ho

/-- Run-log actions never touch the snapshot list. -/
theorem snapshots_invariant_under_runlog (st : BenchState) (a : Action)
    (ha : isRunLogAction a = true) : (step st a).snapshots = st.snapshots := by
  cases a with
  | appendRuns newRuns => rfl
  | clearRuns => rfl
  | saveSnapshot id label => simp [isRunLogAction] at ha
  | deleteSnapshot id => simp [isRunLogAction] at ha

/-- Taking a positive prefix preserves the head. -/
theorem head_take_pos {α : Type} (l : List α) (n : Nat) (hn : 0 < n) :
    (l.take n).head? = l.head? := by
  cases n with
  | zero => omega
  | succ m =>
    cases l with
    | nil => rfl
    | cons x xs => rfl

/-- Claim C6: saving a snapshot stores an independent compacted copy of
the current run log; any later sequence of run-log mutations (appends,
clears) leaves the snapshot list — in particular the just-saved
snapshot, its `runs` and all its other fields — unchanged. -/
theorem snapshot_immutability (st : BenchState) (id label : List Char)
    (acts : List Action) (hruns : st.runs ≠ [])
    (hacts : ∀ a ∈ acts, isRunLogAction a = true) :
    (acts.foldl step (step st (Action.saveSnapshot id label))).snapshots =
      (step st (Action.saveSnapshot id label)).snapshots ∧
    (step st (Action.saveSnapshot id label)).snapshots.head? =
      some { id := id, label := label, runs := compactRunsForStorage st.runs } := by
  constructor
  · have hgen : ∀ (acts : List Action) (s : BenchState),
        (∀ a ∈ acts, isRunLogAction a = true) →
        (acts.foldl step s).snapshots = s.snapshots := by
      intro acts
      induction acts with
      | nil => intro s _; rfl
      | cons a rest ih =>
        intro s hall
        rw [List.foldl_cons, ih (step s a) fun x hx => hall x (List.mem_cons_of_mem a hx),
          snapshots_invariant_under_runlog s a (hall a (List.mem_cons_self a rest))]
    exact hgen acts _ hacts
  · show (step st (Action.saveSnapshot id label)).snapshots.head? = _
    rw [step, if_neg hruns]
    exact head_take_pos _ MAX_SNAPSHOTS (by decide) ▸
      head_take_pos ({ id := id, label := label, runs := compactRunsForStorage st.runs } ::
        st.snapshots) MAX_SNAPSHOTS (by decide) ▸ rfl

/-- Witness for C6: a concrete save followed by clearing the run log; the
stored snapshot still holds the compacted copy. -/
theorem snapshot_immutability_witness :
    (([Action.clearRuns]).foldl step
        (step ⟨[exampleRun], []⟩ (Action.saveSnapshot "s1".data "lbl".data))).snapshots =
      (step ⟨[exampleRun], []⟩ (Action.saveSnapshot "s1".data "lbl".data)).snapshots ∧
    (step ⟨[exampleRun], []⟩ (Action.saveSnapshot "s1".data "lbl".data)).snapshots.head? =
      some { id := "s1".data, label := "lbl".data,
             runs := compactRunsForStorage [exampleRun] } :=
  snapshot_immutability ⟨[exampleRun], []⟩ "s1".data "lbl".data [Action.clearRuns]
    (by decide) (by decide)

/-- Counterexample for C2: with profiling disabled the ASR backend can
return a result without a metrics object; the measured-trial `Run` then
has `error = null` and `metrics = null` simultaneously, violating the
stated invariant. -/
theorem run_invariant_counterexample :
    ∃ run ∈ runBenchmark "b".data "sp".data [⟨0, "u".data, "t".data⟩] 1
      (fun _ => Except.ok 1) (fun _ _ => Except.ok ⟨"hi".data, none⟩),
      run.error = none ∧ run.metrics = none := by
  decide

/-- Every run emitted by the executor is either a success run
(`error = null`) or an error run carrying no metrics. -/
theorem measuredRunsGo_error_or_metrics (batchId sampleKey : List Char)
    (rowIndex : Nat) (refText : List Char) (durationSec : ℚ)
    (trial : Nat → Except (List Char) TranscribeResult) :
    ∀ (rem r : Nat) (baseline : Option (List Char)),
    ∀ run ∈ measuredRunsGo batchId sampleKey rowIndex refText durationSec trial r rem baseline,
      run.error = none ∨ (run.error ≠ none ∧ run.metrics = none) := by
  intro rem
  induction rem with
  | zero =>
    intro r baseline run hrun
    simp [measuredRunsGo] at hrun
  | succ rem ih =>
    intro r baseline run hrun
    rw [measuredRunsGo] at hrun
    cases htr : trial r with
    | ok result =>
      rw [htr] at hrun
      rcases List.mem_cons.mp hrun with h | h
      · subst h; left; rfl
      · exact ih (r + 1) _ run h
    | error msg =>
      rw [htr] at hrun
      rcases List.mem_cons.mp hrun with h | h
      · subst h; right; exact ⟨by simp [transcribeErrorRun], rfl⟩
      · exact ih (r + 1) _ run h

/-- Same dichotomy over the whole batch output. -/
theorem runBenchmarkFrom_error_or_metrics (batchId split : List Char)
    (repeatCount : Nat) (decode : Sample → Except (List Char) ℚ)
    (trials : Nat → Nat → Except (List Char) TranscribeResult) :
    ∀ (samples : List Sample) (i0 : Nat),
    ∀ run ∈ runBenchmarkFrom batchId split repeatCount decode trials i0 samples,
      run.error = none ∨ (run.error ≠ none ∧ run.metrics = none) := by
  intro samples
  induction samples with
  | nil =>
    intro i0 run hrun
    simp [runBenchmarkFrom] at hrun
  | cons s rest ih =>
    intro i0 run hrun
    rw [runBenchmarkFrom] at hrun
    rcases List.mem_append.mp hrun with h | h
    · rw [sampleRuns] at h
      cases hdec : decode s with
      | ok durationSec =>
        rw [hdec] at h
        exact measuredRunsGo_error_or_metrics _ _ _ _ _ _ _ _ _ run h
      | error msg =>
        rw [hdec] at h
        rcases List.mem_singleton.mp h with rfl
        right
        exact ⟨by simp [decodeErrorRun], rfl⟩
    · exact ih (i0 + 1) run h

/-- Claim C2 (amended): every `Run` appended by the executor has either
`error != null` and `metrics == null` (decode or transcribe failure), or
`error == null` with the backend metrics stored verbatim — which may be
absent or lack a finite `total_ms` when profiling is disabled; the
aggregation layer compensates by selecting only runs with `error == null`,
a metrics object and finite `total_ms` (the `okRuns` filter). -/
theorem run_error_metrics_discipline (batchId split : List Char)
    (samples : List Sample) (repeatCount : Nat)
    (decode : Sample → Except (List Char) ℚ)
    (trials : Nat → Nat → Except (List Char) TranscribeResult) (runs : List Run) :
    ((runBenchmark batchId split samples repeatCount decode trials).all fun run =>
      (run.error.isSome && run.metrics.isNone) || run.error.isNone) = true ∧
    ((okRuns runs).all fun run =>
      run.error.isNone && metricsFiniteTotal run.metrics) = true := by
  constructor
  · rw [List.all_eq_true]
    intro run hrun
    rcases runBenchmarkFrom_error_or_metrics batchId split repeatCount decode trials
      samples 0 run hrun with h | ⟨h1, h2⟩
    · simp [h]
    · simp [h2, Option.isSome_iff_ne_none.mpr h1]
  · rw [List.all_eq_true]
    intro run hrun
    have hrun2 : run ∈ runs.filter fun r => r.error.isNone && metricsFiniteTotal r.metrics :=
      hrun
    exact (List.mem_filter.mp hrun2).2

/-- Position lemma behind C10: while the baseline is still null, the run
emitted for the first successful trial compares that trial against itself,
so it is an exact match with similarity 1. -/
theorem measuredRunsGo_first_success (batchId sampleKey : List Char)
    (rowIndex : Nat) (refText : List Char) (durationSec : ℚ)
    (trial : Nat → Except (List Char) TranscribeResult)
    (r0 : Nat) (res : TranscribeResult) (hok : trial r0 = Except.ok res) :
    ∀ (rem r : Nat), r ≤ r0 → r0 < r + rem →
    (∀ k, r ≤ k → k < r0 → ∃ msg, trial k = Except.error msg) →
    ((measuredRunsGo batchId sampleKey rowIndex refText durationSec trial r rem none).map
      fun run => (run.repeatIndex, run.exactMatchToFirst, run.similarityToFirst))[r0 - r]? =
      some (r0, some true, some (1 : ℚ)) := by
  intro rem
  induction rem with
  | zero =>
    intro r hle hlt hfail
    omega
  | succ rem ih =>
    intro r hle hlt hfail
    by_cases hr : r = r0
    · subst hr
      rw [measuredRunsGo, hok]
      simp only [List.map_cons, Nat.sub_self, List.getElem?_cons_zero]
      simp [Option.getD, beq_self_eq_true, textSimilarity_self]
    · have hrlt : r < r0 := lt_of_le_of_ne hle hr
      obtain ⟨msg, htrr⟩ := hfail r (le_refl r) hrlt
      rw [measuredRunsGo, htrr]
      have hidx : r0 - r = (r0 - (r + 1)) + 1 := by omega
      rw [List.map_cons, hidx, List.getElem?_cons_succ]
      exact ih (r + 1) hrlt (by omega) fun k hk1 hk2 => hfail k (by omega) hk2

/-- Claim C10: for every sample, the first successful measured trial has
`exactMatchToFirst = true` and `similarityToFirst = 1`, because the
baseline is set to that trial's own normalized transcription immediately
before the comparison; the run at position `r0 - 1` of the measured-run
list (repeat `r0`, the first success after `r0 - 1` failures) carries
exactly `(r0, some true, some 1)`. -/
theorem first_success_self_comparison (batchId sampleKey : List Char)
    (rowIndex : Nat) (refText : List Char) (durationSec : ℚ)
    (trial : Nat → Except (List Char) TranscribeResult)
    (repeatCount r0 : Nat) (res : TranscribeResult)
    (h1 : 1 ≤ r0) (h2 : r0 ≤ repeatCount)
    (hfail : ∀ k, 1 ≤ k → k < r0 → ∃ msg, trial k = Except.error msg)
    (hok : trial r0 = Except.ok res) :
    ((measuredRunsGo batchId sampleKey rowIndex refText durationSec trial
        1 repeatCount none).map
      fun run => (run.repeatIndex, run.exactMatchToFirst, run.similarityToFirst))[r0 - 1]? =
      some (r0, some true, some (1 : ℚ)) :=
  measuredRunsGo_first_success batchId sampleKey rowIndex refText durationSec trial
    r0 res hok repeatCount 1 h1 (by omega) hfail

/-- Witness for C10: a two-repeat sample whose first trial succeeds. -/
theorem first_success_self_comparison_witness :
    ((measuredRunsGo "b".data "sp:0".data 0 "t".data 2
        (fun r => if r = 1 then Except.ok ⟨"hi there".data, none⟩
          else Except.error "late".data) 1 2 none).map
      fun run => (run.repeatIndex, run.exactMatchToFirst, run.similarityToFirst))[1 - 1]? =
      some (1, some true, some (1 : ℚ)) :=
  first_success_self_comparison "b".data "sp:0".data 0 "t".data 2
    (fun r => if r = 1 then Except.ok ⟨"hi there".data, none⟩ else Except.error "late".data)
    2 1 ⟨"hi there".data, none⟩ (by decide) (by decide)
    (fun k hk1 hk2 => absurd (Nat.lt_of_le_of_lt hk1 hk2) (Nat.lt_irrefl 1)) rfl

/-- Every measured run carries the sample key it was built from. -/
theorem measuredRunsGo_sampleKey (batchId sampleKey : List Char) (rowIndex : Nat)
    (refText : List Char) (durationSec : ℚ)
    (trial : Nat → Except (List Char) TranscribeResult) :
    ∀ (rem r : Nat) (baseline : Option (List Char)),
    ∀ run ∈ measuredRunsGo batchId sampleKey rowIndex refText durationSec trial r rem baseline,
      run.sampleKey = sampleKey := by
  intro rem
  induction rem with
  | zero =>
    intro r baseline run hrun
    simp [measuredRunsGo] at hrun
  | succ rem ih =>
    intro r baseline run hrun
    rw [measuredRunsGo] at hrun
    cases htr : trial r with
    | ok result =>
      rw [htr] at hrun
      rcases List.mem_cons.mp hrun with h | h
      · subst h; rfl
      · exact ih (r + 1) _ run h
    | error msg =>
      rw [htr] at hrun
      rcases List.mem_cons.mp hrun with h | h
      · subst h; rfl
      · exact ih (r + 1) _ run h

/-- The repeat indices of the measured runs are exactly `r, r+1, ...`,
one per planned repeat, whatever the trial outcomes. -/
theorem measuredRunsGo_map_repeatIndex (batchId sampleKey : List Char)
    (rowIndex : Nat) (refText : List Char) (durationSec : ℚ)
    (trial : Nat → Except (List Char) TranscribeResult) :
    ∀ (rem r : Nat) (baseline : Option (List Char)),
    (measuredRunsGo batchId sampleKey rowIndex refText durationSec trial r rem baseline).map
      (fun run => run.repeatIndex) = List.range' r rem := by
  intro rem
  induction rem with
  | zero => intro r baseline; rfl
  | succ rem ih =>
    intro r baseline
    rw [measuredRunsGo]
    have hr : List.range' r (rem + 1) = r :: List.range' (r + 1) rem := rfl
    cases htr : trial r with
    | ok result =>
      rw [List.map_cons, ih (r + 1), hr]
    | error msg =>
      rw [List.map_cons, ih (r + 1), hr]
      rfl

/-- Filtering the measured runs of one sample by a repeat index at which
the trial threw yields exactly the recorded error run. -/
theorem measuredRunsGo_filter_repeat (batchId sampleKey : List Char)
    (rowIndex : Nat) (refText : List Char) (durationSec : ℚ)
    (trial : Nat → Except (List Char) TranscribeResult)
    (r0 : Nat) (tmsg : List Char) (htr : trial r0 = Except.error tmsg) :
    ∀ (rem r : Nat) (baseline : Option (List Char)), r ≤ r0 → r0 < r + rem →
    (measuredRunsGo batchId sampleKey rowIndex refText durationSec trial r rem baseline).filter
      (fun run => run.repeatIndex == r0) =
      [transcribeErrorRun batchId sampleKey rowIndex refText durationSec r0 tmsg] := by
  intro rem
  induction rem with
  | zero =>
    intro r baseline hle hlt
    omega
  | succ rem ih =>
    intro r baseline hle hlt
    have htail : ∀ baseline1,
        (measuredRunsGo batchId sampleKey rowIndex refText durationSec trial
          (r0 + 1) rem baseline1).filter (fun run => run.repeatIndex == r0) = [] := by
      intro baseline1
      rw [List.filter_eq_nil_iff]
      intro run hrun
      have hmem : run.repeatIndex ∈ List.range' (r0 + 1) rem := by
        rw [← measuredRunsGo_map_repeatIndex batchId sampleKey rowIndex refText
          durationSec trial rem (r0 + 1) baseline1]
        exact List.mem_map_of_mem (fun x => x.repeatIndex) hrun
      have hbound := List.mem_range'_1.mp hmem
      simp only [beq_iff_eq]
      omega
    by_cases hr : r = r0
    · subst hr
      rw [measuredRunsGo, htr]
      rw [List.filter_cons_of_pos (by simp [transcribeErrorRun])]
      rw [htail]
    · have hrlt : r < r0 := lt_of_le_of_ne hle hr
      rw [measuredRunsGo]
      cases htrr : trial r with
      | ok result =>
        rw [List.filter_cons_of_neg (by simp; omega)]
        exact ih (r + 1) _ (by omega) (by omega)
      | error msg =>
        rw [List.filter_cons_of_neg (by simp [transcribeErrorRun]; omega)]
        exact ih (r + 1) _ (by omega) (by omega)

/-- Every run emitted for one sample carries that sample's key. -/
theorem sampleRuns_sampleKey (batchId split : List Char) (repeatCount : Nat)
    (decode : Sample → Except (List Char) ℚ)
    (trial : Nat → Except (List Char) TranscribeResult) (s : Sample) :
    ∀ run ∈ sampleRuns batchId split repeatCount decode trial s,
      run.sampleKey = sampleKeyOf split s := by
  intro run hrun
  rw [sampleRuns] at hrun
  cases hdec : decode s with
  | ok durationSec =>
    rw [hdec] at hrun
    exact measuredRunsGo_sampleKey _ _ _ _ _ _ _ _ _ run hrun
  | error msg =>
    rw [hdec] at hrun
    rcases List.mem_singleton.mp hrun with rfl
    rfl

/-- Every run of a batch carries the key of one of the batch samples. -/
theorem runBenchmarkFrom_sampleKey_mem (batchId split : List Char)
    (repeatCount : Nat) (decode : Sample → Except (List Char) ℚ)
    (trials : Nat → Nat → Except (List Char) TranscribeResult) :
    ∀ (samples : List Sample) (i0 : Nat),
    ∀ run ∈ runBenchmarkFrom batchId split repeatCount decode trials i0 samples,
      run.sampleKey ∈ samples.map fun x => sampleKeyOf split x := by
  intro samples
  induction samples with
  | nil =>
    intro i0 run hrun
    simp [runBenchmarkFrom] at hrun
  | cons s rest ih =>
    intro i0 run hrun
    rw [runBenchmarkFrom] at hrun
    rcases List.mem_append.mp hrun with h | h
    · rw [List.map_cons]
      exact (sampleRuns_sampleKey batchId split repeatCount decode (trials i0) s run h) ▸
        List.mem_cons_self _ _
    · exact List.mem_cons_of_mem _ (ih (i0 + 1) run h)

/-- Filtering a batch by the key of its `i`-th sample recovers exactly the
runs emitted for that sample (per-sample isolation): the filtered output
is a function of that sample's own decode and trial outcomes alone. -/
theorem filter_key_runBenchmarkFrom (batchId split : List Char)
    (repeatCount : Nat) (decode : Sample → Except (List Char) ℚ)
    (trials : Nat → Nat → Except (List Char) TranscribeResult) :
    ∀ (samples : List Sample) (i0 i : Nat) (s : Sample),
    samples[i]? = some s → (samples.map fun x => sampleKeyOf split x).Nodup →
    (runBenchmarkFrom batchId split repeatCount decode trials i0 samples).filter
      (fun run => run.sampleKey == sampleKeyOf split s) =
      sampleRuns batchId split repeatCount decode (trials (i0 + i)) s := by
  intro samples
  induction samples with
  | nil =>
    intro i0 i s hsi
    simp at hsi
  | cons s0 rest ih =>
    intro i0 i s hsi hnd
    rw [List.map_cons, List.nodup_cons] at hnd
    cases i with
    | zero =>
      have hs : s0 = s := by simpa using hsi
      subst hs
      rw [runBenchmarkFrom, List.filter_append]
      have h1 : (sampleRuns batchId split repeatCount decode (trials i0) s0).filter
          (fun run => run.sampleKey == sampleKeyOf split s0) =
          sampleRuns batchId split repeatCount decode (trials i0) s0 := by
        rw [List.filter_eq_self]
        intro run hrun
        simp [sampleRuns_sampleKey batchId split repeatCount decode (trials i0) s0 run hrun]
      have h2 : (runBenchmarkFrom batchId split repeatCount decode trials (i0 + 1) rest).filter
          (fun run => run.sampleKey == sampleKeyOf split s0) = [] := by
        rw [List.filter_eq_nil_iff]
        intro run hrun
        have hmem := runBenchmarkFrom_sampleKey_mem batchId split repeatCount decode trials
          rest (i0 + 1) run hrun
        simp only [beq_iff_eq]
        intro heq
        exact hnd.1 (heq ▸ hmem)
      rw [h1, h2, List.append_nil, Nat.add_zero]
    | succ i =>
      have hsi2 : rest[i]? = some s := by simpa using hsi
      have hs : s ∈ rest := by
        rcases List.getElem?_eq_some.mp hsi2 with ⟨hlt, hget⟩
        exact hget ▸ List.getElem_mem hlt
      rw [runBenchmarkFrom, List.filter_append]
      have h1 : (sampleRuns batchId split repeatCount decode (trials i0) s0).filter
          (fun run => run.sampleKey == sampleKeyOf split s) = [] := by
        rw [List.filter_eq_nil_iff]
        intro run hrun
        have hkey := sampleRuns_sampleKey batchId split repeatCount decode (trials i0) s0 run hrun
        simp only [beq_iff_eq, hkey]
        intro heq
        exact hnd.1 (heq ▸ List.mem_map_of_mem (fun x => sampleKeyOf split x) hs)
      have h2 := ih (i0 + 1) i s hsi2 hnd.2
      rw [h1, h2, List.nil_append]
      have : i0 + 1 + i = i0 + (i + 1) := by omega
      rw [this]

/-- Claim C3: per-sample and per-trial failures are isolated, never fatal
to the batch.  If decode fails for the sample at index `i`, the batch
contains exactly one run for that sample: the placeholder with
`repeatIndex = 0` and the decode error set.  A sample at index `j` whose
decode succeeds still contributes exactly its own measured runs — one run
per planned repeat (`repeatIndex` ranging over `1..repeatCount`),
independent of every other sample's failures — and a repeat whose
`transcribe` call throws is recorded as exactly one error run at its own
repeat index while the remaining repeats still run. -/
theorem run_isolation (batchId split : List Char) (samples : List Sample)
    (repeatCount : Nat) (decode : Sample → Except (List Char) ℚ)
    (trials : Nat → Nat → Except (List Char) TranscribeResult)
    (i j : Nat) (si sj : Sample) (emsg : List Char) (d : ℚ)
    (r0 : Nat) (tmsg : List Char)
    (hkeys : (samples.map fun x => sampleKeyOf split x).Nodup)
    (hi : samples[i]? = some si) (hj : samples[j]? = some sj)
    (hdec : decode si = Except.error emsg)
    (hok : decode sj = Except.ok d)
    (hr1 : 1 ≤ r0) (hr2 : r0 ≤ repeatCount)
    (htr : trials j r0 = Except.error tmsg) :
    (runBenchmark batchId split samples repeatCount decode trials).filter
      (fun run => run.sampleKey == sampleKeyOf split si) =
      [decodeErrorRun batchId split si emsg] ∧
    (runBenchmark batchId split samples repeatCount decode trials).filter
      (fun run => run.sampleKey == sampleKeyOf split sj) =
      measuredRunsGo batchId (sampleKeyOf split sj) sj.rowIndex sj.referenceText d
        (trials j) 1 repeatCount none ∧
    ((runBenchmark batchId split samples repeatCount decode trials).filter
      (fun run => run.sampleKey == sampleKeyOf split sj)).map
        (fun run => run.repeatIndex) = List.range' 1 repeatCount ∧
    (runBenchmark batchId split samples repeatCount decode trials).filter
      (fun run => run.sampleKey == sampleKeyOf split sj && run.repeatIndex == r0) =
      [transcribeErrorRun batchId (sampleKeyOf split sj) sj.rowIndex sj.referenceText
        d r0 tmsg] := by
  have hfi := filter_key_runBenchmarkFrom batchId split repeatCount decode trials
    samples 0 i si hi hkeys
  have hfj := filter_key_runBenchmarkFrom batchId split repeatCount decode trials
    samples 0 j sj hj hkeys
  rw [Nat.zero_add] at hfi hfj
  have hfi2 : (runBenchmark batchId split samples repeatCount decode trials).filter
      (fun run => run.sampleKey == sampleKeyOf split si) =
      [decodeErrorRun batchId split si emsg] := by
    rw [runBenchmark, hfi, sampleRuns, hdec]
  have hfj2 : (runBenchmark batchId split samples repeatCount decode trials).filter
      (fun run => run.sampleKey == sampleKeyOf split sj) =
      measuredRunsGo batchId (sampleKeyOf split sj) sj.rowIndex sj.referenceText d
        (trials j) 1 repeatCount none := by
    rw [runBenchmark, hfj, sampleRuns, hok]
  refine ⟨hfi2, hfj2, ?_, ?_⟩
  · rw [hfj2]
    exact measuredRunsGo_map_repeatIndex _ _ _ _ _ _ repeatCount 1 none
  · have hsplit : (runBenchmark batchId split samples repeatCount decode trials).filter
        (fun run => run.sampleKey == sampleKeyOf split sj && run.repeatIndex == r0) =
        ((runBenchmark batchId split samples repeatCount decode trials).filter
          (fun run => run.sampleKey == sampleKeyOf split sj)).filter
          (fun run => run.repeatIndex == r0) := by
      rw [List.filter_filter]
      exact List.filter_congr fun a _ => Bool.and_comm _ _
    rw [hsplit, hfj2]
    exact measuredRunsGo_filter_repeat batchId (sampleKeyOf split sj) sj.rowIndex
      sj.referenceText d (trials j) r0 tmsg htr repeatCount 1 none hr1 (by omega)

/-- Witness for C3: the isolation property instantiated on the concrete
three-sample batch with a decode failure on sample 2 and a trial failure
on repeat 1 of sample 3. -/
theorem run_isolation_witness :
    (runBenchmark "b".data "sp".data isoSamples 2 isoDecode isoTrials).filter
      (fun run => run.sampleKey == sampleKeyOf "sp".data ⟨1, "u1".data, "t1".data⟩) =
      [decodeErrorRun "b".data "sp".data ⟨1, "u1".data, "t1".data⟩ "boom".data] ∧
    (runBenchmark "b".data "sp".data isoSamples 2 isoDecode isoTrials).filter
      (fun run => run.sampleKey == sampleKeyOf "sp".data ⟨2, "u2".data, "t2".data⟩) =
      measuredRunsGo "b".data (sampleKeyOf "sp".data ⟨2, "u2".data, "t2".data⟩) 2
        "t2".data 1 (isoTrials 2) 1 2 none ∧
    ((runBenchmark "b".data "sp".data isoSamples 2 isoDecode isoTrials).filter
      (fun run => run.sampleKey == sampleKeyOf "sp".data ⟨2, "u2".data, "t2".data⟩)).map
        (fun run => run.repeatIndex) = List.range' 1 2 ∧
    (runBenchmark "b".data "sp".data isoSamples 2 isoDecode isoTrials).filter
      (fun run => run.sampleKey == sampleKeyOf "sp".data ⟨2, "u2".data, "t2".data⟩ &&
        run.repeatIndex == 1) =
      [transcribeErrorRun "b".data (sampleKeyOf "sp".data ⟨2, "u2".data, "t2".data⟩) 2
        "t2".data 1 1 "flaky".data] :=
  run_isolation "b".data "sp".data isoSamples 2 isoDecode isoTrials 1 2
    ⟨1, "u1".data, "t1".data⟩ ⟨2, "u2".data, "t2".data⟩ "boom".data 1 1 "flaky".data
    (by decide) rfl rfl rfl rfl (by decide) (by decide) rfl

/-- An accumulating fold of additions is the starting value plus a sum. -/
theorem foldl_add_map {α : Type} (f : α → ℚ) (l : List α) :
    ∀ a : ℚ, l.foldl (fun s x => s + f x) a = a + (l.map f).sum := by
  induction l with
  | nil => intro a; simp
  | cons x xs ih =>
    intro a
    simp only [List.foldl_cons, List.map_cons, List.sum_cons, ih]
    ring

/-- The accumulating sum of the stats module is the list sum. -/
theorem listSum_eq_sum (l : List ℚ) : listSum l = l.sum := by
  have h := foldl_add_map (fun v => v) l 0
  simpa [listSum] using h

/-- Expansion of the residual sum of squares into moment sums. -/
theorem sum_sq_affine (L : List (ℚ × ℚ)) (a b : ℚ) :
    (L.map fun p => (p.2 - (a * p.1 + b)) ^ 2).sum =
      Eform ((L.map fun p => p.2 ^ 2).sum) ((L.map fun p => p.1 ^ 2).sum)
        ((L.map fun p => p.1 * p.2).sum) ((L.map fun p => p.2).sum)
        ((L.map fun p => p.1).sum) (L.length : ℚ) a b := by
  induction L with
  | nil => simp [Eform]
  | cons p ps ih =>
    simp only [List.map_cons, List.sum_cons, List.length_cons, ih, Eform]
    push_cast
    ring

/-- Expansion of a centered sum of squares. -/
theorem sum_sq_dev (l : List ℚ) (c : ℚ) :
    (l.map fun x => (x - c) ^ 2).sum =
      (l.map fun x => x ^ 2).sum - 2 * c * l.sum + (l.length : ℚ) * c ^ 2 := by
  induction l with
  | nil => simp
  | cons x xs ih =>
    simp only [List.map_cons, List.sum_cons, List.length_cons, ih]
    push_cast
    ring

/-- Expansion of a centered cross sum. -/
theorem sum_mul_dev (L : List (ℚ × ℚ)) (c d : ℚ) :
    (L.map fun p => (p.1 - c) * (p.2 - d)).sum =
      (L.map fun p => p.1 * p.2).sum - c * (L.map fun p => p.2).sum -
        d * (L.map fun p => p.1).sum + (L.length : ℚ) * (c * d) := by
  induction L with
  | nil => simp
  | cons p ps ih =>
    simp only [List.map_cons, List.sum_cons, List.length_cons, ih]
    push_cast
    ring

/-- A sum of squares is nonnegative. -/
theorem sum_map_sq_nonneg {α : Type} (l : List α) (g : α → ℚ) :
    0 ≤ (l.map fun x => g x ^ 2).sum := by
  induction l with
  | nil => simp
  | cons x xs ih =>
    simp only [List.map_cons, List.sum_cons]
    have := sq_nonneg (g x)
    linarith

/-- A vanishing centered sum of squares forces every element to the
center. -/
theorem sum_sq_dev_eq_zero (l : List ℚ) (c : ℚ)
    (h : (l.map fun x => (x - c) ^ 2).sum = 0) : ∀ x ∈ l, x = c := by
  induction l with
  | nil => simp
  | cons x xs ih =>
    simp only [List.map_cons, List.sum_cons] at h
    have h1 : 0 ≤ (x - c) ^ 2 := sq_nonneg _
    have h2 : 0 ≤ ((xs.map fun x => (x - c) ^ 2)).sum := by
      have := sum_map_sq_nonneg xs (fun x => x - c)
      simpa using this
    have hx : (x - c) ^ 2 = 0 := by linarith
    have hxc : x = c := by
      have := pow_eq_zero_iff (n := 2) (by omega) |>.mp hx
      linarith [this]
    intro y hy
    rcases List.mem_cons.mp hy with rfl | hy
    · exact hxc
    · exact ih (by linarith) y hy

/-- If all elements agree, the sum is the length times the value. -/
theorem sum_const_of_all_eq (l : List ℚ) (c : ℚ) (h : ∀ x ∈ l, x = c) :
    l.sum = (l.length : ℚ) * c := by
  induction l with
  | nil => simp
  | cons x xs ih =>
    simp only [List.sum_cons, List.length_cons]
    rw [h x (List.mem_cons_self x xs), ih fun y hy => h y (List.mem_cons_of_mem x hy)]
    push_cast
    ring

/-- Difference-of-objectives identity behind ordinary least squares: if
`ah` solves the normal equation `ah * den = num` and `bh = my - ah * mx`,
the quadratic objective at any `(a, b)` exceeds the objective at
`(ah, bh)` by a weighted sum of two squares. -/
theorem ols_scalar_identity (n Sx Sy Sxx Sxy Syy a b mx my den num ah bh : ℚ)
    (hSx : Sx = n * mx) (hSy : Sy = n * my)
    (hden : den = Sxx - mx * Sx) (hnum : num = Sxy - mx * Sy)
    (hah : ah * den = num) (hbh : bh = my - ah * mx) :
    Eform Syy Sxx Sxy Sy Sx n a b - Eform Syy Sxx Sxy Sy Sx n ah bh =
      den * (a - ah) ^ 2 + n * (my - a * mx - b) ^ 2 := by
  subst hSx hSy hden hnum hbh
  simp only [Eform]
  linear_combination (2 * (a - ah)) * hah

/-- Counterexample for C4: with two points of equal x the variance of x is
zero, yet `linearFit` returns intercept `b = mean(ys) = 2`, not the
documented all-zero record. -/
theorem linearFit_zero_variance_counterexample :
    linearFit [1, 1] [2, 2] = ⟨0, 2, 0⟩ ∧ (⟨0, 2, 0⟩ : LinFit) ≠ ⟨0, 0, 0⟩ := by
  constructor
  · norm_num [linearFit, listSum, List.zip]
  · intro h
    have := congrArg LinFit.b h
    norm_num at this

/-- Claim C4 (amended): `linearFit` computes the ordinary least squares
line — with at least 2 points and non-constant x, its slope and intercept
minimize the sum of squared residuals, and its `r2` is `1 - ssRes/ssTot`
when the y values are not all equal; with fewer than 2 points it returns
`{0, 0, 0}`; with at least 2 points but zero variance in x it returns
slope 0, R² 0, and intercept `mean(ys)` (not 0); on `[1,2,3]`, `[2,4,6]`
it returns slope 2, intercept 0, R² 1. -/
theorem linearFit_ols (xs ys : List ℚ) (hlen : ys.length = xs.length) :
    (xs.length < 2 → linearFit xs ys = ⟨0, 0, 0⟩) ∧
    (2 ≤ xs.length → (∀ x1 ∈ xs, ∀ x2 ∈ xs, x1 = x2) →
      linearFit xs ys = ⟨0, listSum ys / (xs.length : ℚ), 0⟩) ∧
    (2 ≤ xs.length → (∃ x1 ∈ xs, ∃ x2 ∈ xs, x1 ≠ x2) →
      ∀ a1 b1 : ℚ, ssqResid xs ys (linearFit xs ys).a (linearFit xs ys).b ≤
        ssqResid xs ys a1 b1) ∧
    (2 ≤ xs.length → (∃ y1 ∈ ys, ∃ y2 ∈ ys, y1 ≠ y2) →
      (linearFit xs ys).r2 = 1 -
        ssqResid xs ys (linearFit xs ys).a (linearFit xs ys).b /
          ssTotAbout ys (listSum ys / (xs.length : ℚ))) ∧
    linearFit [1, 2, 3] [2, 4, 6] = ⟨2, 0, 1⟩ := by
  have hfold : ∀ (L : List (ℚ × ℚ)) (g : ℚ × ℚ → ℚ),
      L.foldl (fun s p => s + g p) 0 = (L.map g).sum := by
    intro L g
    simpa using foldl_add_map g L 0
  have hfoldx : ∀ (l : List ℚ) (g : ℚ → ℚ),
      l.foldl (fun s x => s + g x) 0 = (l.map g).sum := by
    intro l g
    simpa using foldl_add_map g l 0
  refine ⟨?_, ?_, ?_, ?_, ?_⟩
  · intro h
    rw [linearFit, if_pos h]
  · -- zero variance in x
    intro h2 hall
    have hne : xs ≠ [] := by
      intro h
      rw [h] at h2
      simp at h2
    have hn0 : (xs.length : ℚ) ≠ 0 := by
      have : 0 < xs.length := by omega
      positivity
    -- every element of xs equals the mean of xs
    have hmx : ∀ x ∈ xs, x = listSum xs / (xs.length : ℚ) := by
      rcases xs with _ | ⟨x0, rest⟩
      · simp
      · intro x hx
        have hx0 : ∀ z ∈ x0 :: rest, z = x0 := fun z hz =>
          hall z hz x0 (List.mem_cons_self _ _)
        have hsum : listSum (x0 :: rest) = ((x0 :: rest).length : ℚ) * x0 := by
          rw [listSum_eq_sum]
          exact sum_const_of_all_eq _ _ hx0
        rw [hsum, hx0 x hx]
        field_simp
    rw [linearFit, if_neg (by omega)]
    dsimp only
    have hden0 : xs.foldl (fun s x => s + (x - listSum xs / (xs.length : ℚ)) ^ 2) 0 = 0 := by
      rw [hfoldx]
      apply List.sum_eq_zero
      intro q hq
      rcases List.mem_map.mp hq with ⟨x, hx, rfl⟩
      rw [hmx x hx]
      ring
    rw [if_pos hden0]
    simp only [zero_mul, sub_zero, LinFit.mk.injEq]
    refine ⟨trivial, trivial, ?_⟩
    -- the residual sum at (0, my) equals the total sum of squares
    have hres : ((xs.zip ys).map fun p =>
        (p.2 - (0 + listSum ys / (xs.length : ℚ))) ^ 2).sum =
        ((ys.take xs.length).map fun y => (y - listSum ys / (xs.length : ℚ)) ^ 2).sum := by
      have htake : ys.take xs.length = ys := by
        rw [← hlen]
        exact List.take_length ys
      have hsnd : (xs.zip ys).map (fun p => p.2) = ys :=
        List.map_snd_zip xs ys (le_of_eq hlen)
      calc ((xs.zip ys).map fun p =>
          (p.2 - (0 + listSum ys / (xs.length : ℚ))) ^ 2).sum =
          ((xs.zip ys).map fun p => (p.2 - listSum ys / (xs.length : ℚ)) ^ 2).sum := by
            apply congrArg
            apply List.map_congr_left
            intro p _
            ring
        _ = (((xs.zip ys).map fun p => p.2).map fun y =>
            (y - listSum ys / (xs.length : ℚ)) ^ 2).sum := by
            rw [List.map_map]
            rfl
        _ = ((ys.take xs.length).map fun y => (y - listSum ys / (xs.length : ℚ)) ^ 2).sum := by
            rw [hsnd, htake]
    rw [hfold, hfoldx, hres]
    set T := ((ys.take xs.length).map fun y => (y - listSum ys / (xs.length : ℚ)) ^ 2).sum
    by_cases hT : T = 0
    · rw [if_pos hT]
    · rw [if_neg hT, div_self hT]
      ring
  · -- least-squares minimality with non-constant x
    intro h2 hx12 a1 b1
    obtain ⟨x1, hx1, x2, hx2, hx12⟩ := hx12
    have hn0 : (xs.length : ℚ) ≠ 0 := by
      have : 0 < xs.length := by omega
      positivity
    have hfst : (xs.zip ys).map (fun p => p.1) = xs :=
      List.map_fst_zip xs ys (le_of_eq hlen.symm)
    have hsnd : (xs.zip ys).map (fun p => p.2) = ys :=
      List.map_snd_zip xs ys (le_of_eq hlen)
    have hLlen : ((xs.zip ys).length : ℚ) = (xs.length : ℚ) := by
      rw [List.length_zip, hlen, min_self]
    rw [linearFit, if_neg (by omega)]
    dsimp only
    set mx := listSum xs / (xs.length : ℚ) with hmxdef
    set my := listSum ys / (xs.length : ℚ) with hmydef
    set DEN := xs.foldl (fun s x => s + (x - mx) ^ 2) 0 with hDENdef
    set NUM := (xs.zip ys).foldl (fun s p => s + (p.1 - mx) * (p.2 - my)) 0 with hNUMdef
    have hDENsum : DEN = (xs.map fun x => (x - mx) ^ 2).sum := by
      rw [hDENdef, hfoldx]
    have hDENnonneg : 0 ≤ DEN := by
      rw [hDENsum]
      exact sum_map_sq_nonneg xs (fun x => x - mx)
    have hDENne : DEN ≠ 0 := by
      intro h0
      rw [hDENsum] at h0
      have := sum_sq_dev_eq_zero xs mx h0
      exact hx12 ((this x1 hx1).trans (this x2 hx2).symm)
    rw [if_neg hDENne]
    -- moment sums over the zipped data
    set Sx := ((xs.zip ys).map fun p => p.1).sum with hSxdef
    set Sy := ((xs.zip ys).map fun p => p.2).sum with hSydef
    set Sxx := ((xs.zip ys).map fun p => p.1 ^ 2).sum with hSxxdef
    set Sxy := ((xs.zip ys).map fun p => p.1 * p.2).sum with hSxydef
    set Syy := ((xs.zip ys).map fun p => p.2 ^ 2).sum with hSyydef
    have hSx : Sx = (xs.length : ℚ) * mx := by
      rw [hSxdef, hfst, hmxdef, listSum_eq_sum]
      field_simp
    have hSy : Sy = (xs.length : ℚ) * my := by
      rw [hSydef, hsnd, hmydef, listSum_eq_sum]
      field_simp
    have hxsq : (xs.map fun x => x ^ 2).sum = Sxx := by
      rw [hSxxdef]
      conv_lhs => rw [← hfst]
      rw [List.map_map]
      rfl
    have hDENrel : DEN = Sxx - mx * Sx := by
      rw [hDENsum, sum_sq_dev, hxsq, hSx]
      have hsum : xs.sum = Sx := by rw [hSxdef, hfst]
      rw [hsum, hSx]
      ring
    have hNUMrel : NUM = Sxy - mx * Sy := by
      rw [hNUMdef, hfold, sum_mul_dev]
      rw [← hSxydef, ← hSydef, ← hSxdef, hLlen, hSx, hSy]
      ring
    have hah : NUM / DEN * DEN = NUM := div_mul_cancel₀ NUM hDENne
    have hident := ols_scalar_identity (xs.length : ℚ) Sx Sy Sxx Sxy Syy a1 b1
      mx my DEN NUM (NUM / DEN) (my - NUM / DEN * mx)
      hSx hSy hDENrel hNUMrel hah rfl
    have hE : ∀ A B : ℚ, ssqResid xs ys A B = Eform Syy Sxx Sxy Sy Sx (xs.length : ℚ) A B := by
      intro A B
      rw [ssqResid, sum_sq_affine, hLlen]
    rw [hE, hE]
    have hrest : 0 ≤ DEN * (a1 - NUM / DEN) ^ 2 +
        (xs.length : ℚ) * (my - a1 * mx - b1) ^ 2 := by
      have h1 : 0 ≤ DEN * (a1 - NUM / DEN) ^ 2 := mul_nonneg hDENnonneg (sq_nonneg _)
      have h2 : 0 ≤ (xs.length : ℚ) * (my - a1 * mx - b1) ^ 2 := by
        have : (0 : ℚ) ≤ (xs.length : ℚ) := by positivity
        exact mul_nonneg this (sq_nonneg _)
      linarith
    linarith [hident]
  · -- R² = 1 - ssRes / ssTot when the y values are not all equal
    intro h2 hy12
    obtain ⟨y1, hy1, y2, hy2, hy12⟩ := hy12
    have hn0 : (xs.length : ℚ) ≠ 0 := by
      have : 0 < xs.length := by omega
      positivity
    have htake : ys.take xs.length = ys := by
      rw [← hlen]
      exact List.take_length ys
    rw [linearFit, if_neg (by omega)]
    dsimp only
    set mx := listSum xs / (xs.length : ℚ) with hmxdef
    set my := listSum ys / (xs.length : ℚ) with hmydef
    have hTOT : (ys.take xs.length).foldl (fun s y => s + (y - my) ^ 2) 0 =
        ssTotAbout ys my := by
      rw [htake, hfoldx, ssTotAbout]
    have hTOTne : ssTotAbout ys my ≠ 0 := by
      intro h0
      rw [ssTotAbout] at h0
      have := sum_sq_dev_eq_zero ys my h0
      exact hy12 ((this y1 hy1).trans (this y2 hy2).symm)
    rw [hTOT, if_neg hTOTne]
    set A := (if xs.foldl (fun s x => s + (x - mx) ^ 2) 0 = 0 then 0
      else (xs.zip ys).foldl (fun s p => s + (p.1 - mx) * (p.2 - my)) 0 /
        xs.foldl (fun s x => s + (x - mx) ^ 2) 0) with hAdef
    have hRES : (xs.zip ys).foldl (fun s p => s + (p.2 - (A * p.1 + (my - A * mx))) ^ 2) 0 =
        ssqResid xs ys A (my - A * mx) := by
      rw [hfold, ssqResid]
    rw [hRES]
  · norm_num [linearFit, listSum, List.zip]

/-- Witness for C4: each branch of the regression description
instantiated on concrete data. -/
theorem linearFit_ols_witness :
    linearFit [(5 : ℚ)] [(7 : ℚ)] = ⟨0, 0, 0⟩ ∧
    linearFit [(1 : ℚ), 1] [(2 : ℚ), 2] =
      ⟨0, listSum [(2 : ℚ), 2] / (([(1 : ℚ), 1]).length : ℚ), 0⟩ ∧
    ssqResid [(1 : ℚ), 2, 3] [(2 : ℚ), 4, 6]
      (linearFit [(1 : ℚ), 2, 3] [(2 : ℚ), 4, 6]).a
      (linearFit [(1 : ℚ), 2, 3] [(2 : ℚ), 4, 6]).b ≤
      ssqResid [(1 : ℚ), 2, 3] [(2 : ℚ), 4, 6] 0 0 ∧
    (linearFit [(1 : ℚ), 2, 3] [(2 : ℚ), 4, 6]).r2 = 1 -
      ssqResid [(1 : ℚ), 2, 3] [(2 : ℚ), 4, 6]
        (linearFit [(1 : ℚ), 2, 3] [(2 : ℚ), 4, 6]).a
        (linearFit [(1 : ℚ), 2, 3] [(2 : ℚ), 4, 6]).b /
        ssTotAbout [(2 : ℚ), 4, 6] (listSum [(2 : ℚ), 4, 6] /
          (([(1 : ℚ), 2, 3]).length : ℚ)) :=
  ⟨(linearFit_ols [5] [7] (by decide)).1 (by decide),
   (linearFit_ols [1, 1] [2, 2] (by decide)).2.1 (by decide) (by decide),
   (linearFit_ols [1, 2, 3] [2, 4, 6] (by decide)).2.2.1 (by decide) (by decide) 0 0,
   (linearFit_ols [1, 2, 3] [2, 4, 6] (by decide)).2.2.2.1 (by decide) (by decide)⟩

end Bench
